import Mathlib

set_option linter.unusedSectionVars false
set_option linter.unusedVariables false
set_option linter.deprecated false

/-!
Shallow embedding of the leveled-compaction core of the badger LSM tree,
translated from `level_handler.go` and the levels-controller source file.

Keys are modelled as an arbitrary linear order: the source compares keys with
the external `y.CompareKeys`, which is a total order on timestamped keys
(user-key ascending, timestamp descending).  Sizes are `Int` (Go `int64`;
overflow is irrelevant at the magnitudes involved).  Reference-count side
effects are modelled by returning the lists of tables whose reference counts
an operation increments or decrements.
-/

namespace Badger

section Model

variable {K : Type} [LinearOrder K]

/-- Model of `table.Table` (external package): an immutable sorted run with an
id, a key range `[smallest, biggest]` and a size in bytes. -/
structure Table (K : Type) where
  id : Nat
  smallest : K
  biggest : K
  size : Int
deriving DecidableEq

/-- Model of `levelHandler`: the per-level table list and size accounting
(`tables`, `totalSize`), plus the constant fields `level` and
`maxTotalSize`. -/
structure LevelHandler (K : Type) where
  tables : List (Table K)
  totalSize : Int
  level : Nat
  maxTotalSize : Int
deriving DecidableEq

/-- Go `sort.Search`: binary search for the least index in `[0, n)` at which a
monotone predicate is true.  The Go loop narrows `[i, j)` by probing the
midpoint; it is written here with an explicit gas argument equal to the
initial interval width, so that the recursion is structural (the width shrinks
by at least one per step). -/
def goSearchGas (f : Nat → Bool) : Nat → Nat → Nat → Nat
  | 0, i, _ => i
  | gas + 1, i, j =>
    if i < j then
      if f ((i + j) / 2) then goSearchGas f gas i ((i + j) / 2)
      else goSearchGas f gas ((i + j) / 2 + 1) j
    else i

/-- Go `sort.Search(n, f)`. -/
def sortSearch (n : Nat) (f : Nat → Bool) : Nat := goSearchGas f n 0 n

/-- The predicate of the `left` binary search in `getTablesInRange` (and of
the search in `refLevelNTable`): `y.CompareKeys(key, tbls[i].Biggest()) <= 0`,
i.e. the table's biggest key is at least `key`. -/
def biggestGE (tbls : List (Table K)) (key : K) (i : Nat) : Bool :=
  match tbls[i]? with
  | some t => decide (key ≤ t.biggest)
  | none => false

/-- The predicate of the `right` binary search in `getTablesInRange`:
`y.CompareKeys(key, tbls[i].Smallest()) < 0`, i.e. the table's smallest key is
strictly above `key`. -/
def smallestGT (tbls : List (Table K)) (key : K) (i : Nat) : Bool :=
  match tbls[i]? with
  | some t => decide (key < t.smallest)
  | none => false

/-- `getTablesInRange(tbls, start, end)`: the half-open index interval found
by the two binary searches. -/
def getTablesInRange (tbls : List (Table K)) (start stop : K) : Nat × Nat :=
  (sortSearch tbls.length (biggestGE tbls start),
   sortSearch tbls.length (smallestGT tbls stop))

/-- The ordering invariant of a level-`n` (`n ≥ 1`) table list: what
`assertTablesOrder` checks (adjacent tables strictly separated,
`tables[i].biggest < tables[i+1].smallest`, which under well-formedness also
gives the strict ascent of the smallest and biggest keys it asserts), together
with per-table well-formedness `smallest ≤ biggest` for every table (the
source asserts it for every table but the last). -/
def tablesOrdered (l : List (Table K)) : Prop :=
  (∀ t ∈ l, t.smallest ≤ t.biggest) ∧ l.Chain' fun a b => a.biggest < b.smallest

/-- `initTables(tables)`: replace the table set, recompute `totalSize`, and
sort by file id at level 0 or by smallest key otherwise.  Go's unstable
`sort.Slice` is modelled with `mergeSort`, which produces the same multiset in
the same nondecreasing order. -/
def initTables (s : LevelHandler K) (tables : List (Table K)) : LevelHandler K :=
  { s with
    totalSize := (tables.map Table.size).sum
    tables :=
      if s.level = 0 then tables.mergeSort fun a b => decide (a.id ≤ b.id)
      else tables.mergeSort fun a b => decide (a.smallest ≤ b.smallest) }

/-- `tryAddLevel0Table(t)`.  `none` models the `y.Assert(s.level == 0)` panic;
the returned list holds the tables whose reference count is incremented. -/
def tryAddLevel0Table (s : LevelHandler K) (t : Table K) (numLevelZeroTablesStall : Nat) :
    Option (Bool × LevelHandler K × List (Table K)) :=
  if s.level = 0 then
    if numLevelZeroTablesStall ≤ s.tables.length then some (false, s, [])
    else some (true,
      { s with tables := s.tables ++ [t], totalSize := s.totalSize + t.size }, [t])
  else none

/-- `deleteTables(toDel)`: drop every table whose id is in the to-delete set,
decreasing `totalSize` by each dropped table's size.  The second component is
the list handed to `decrRefs` after the lock is released (the argument list,
as in the source). -/
def deleteTables (s : LevelHandler K) (toDel : List (Table K)) :
    LevelHandler K × List (Table K) :=
  let toDelIDs := toDel.map Table.id
  ({ s with
      tables := s.tables.filter fun t => !(toDelIDs.contains t.id)
      totalSize := s.totalSize -
        (((s.tables.filter fun t => toDelIDs.contains t.id).map Table.size).sum) },
   toDel)

/-- `replaceTables(newTables)`: on an empty argument return immediately with
no change; otherwise splice `newTables` over the half-open interval of
existing tables found for `[newTables.first.Smallest, newTables.last.Biggest]`
and adjust `totalSize`.  The two returned lists are the tables passed to
`IncrRef` and (after the lock is released) to `decrRefs`.  The Go code splices
with `make`/`copy`, which is exactly the `take`/`append`/`drop` below whenever
`left ≤ right ≤ length` (guaranteed by the searches under the ordering
invariant; outside it the Go code panics on the `make` with negative size). -/
def replaceTables (s : LevelHandler K) (newTables : List (Table K)) :
    LevelHandler K × List (Table K) × List (Table K) :=
  match newTables with
  | [] => (s, [], [])
  | t0 :: rest =>
    let kl := t0.smallest
    let kr := ((t0 :: rest).getLast (List.cons_ne_nil t0 rest)).biggest
    let p := getTablesInRange s.tables kl kr
    let toDecr := (s.tables.drop p.1).take (p.2 - p.1)
    ({ s with
        tables := s.tables.take p.1 ++ (t0 :: rest) ++ s.tables.drop p.2
        totalSize := s.totalSize + (((t0 :: rest).map Table.size).sum)
          - ((toDecr.map Table.size).sum) },
     t0 :: rest, toDecr)

/-- `refLevel0Tables`: a reversed snapshot of level 0 (newest first); every
returned table has its reference count incremented. -/
def refLevel0Tables (s : LevelHandler K) : List (Table K) := s.tables.reverse

/-- `refLevelNTable(key)`: binary search for the first table whose biggest key
is at least `key`; an out-of-range index means the Go `nil` return. -/
def refLevelNTable (s : LevelHandler K) (key : K) : Option (Table K) :=
  s.tables[sortSearch s.tables.length (biggestGE s.tables key)]?

/-- `refTablesForKey(key)`. -/
def refTablesForKey (s : LevelHandler K) (key : K) : List (Table K) :=
  if s.level = 0 then refLevel0Tables s
  else
    match refLevelNTable s key with
    | none => []
    | some t => [t]

/-- Size-accounting invariant: `totalSize` equals the sum of the sizes of the
tables currently held. -/
def sizeInvariant (s : LevelHandler K) : Prop :=
  s.totalSize = (s.tables.map Table.size).sum

/-- A table-set mutation on one level handler, as issued by compaction. -/
inductive LHOp (K : Type) where
  | replace (newTables : List (Table K)) : LHOp K
  | delete (toDel : List (Table K)) : LHOp K

/-- Apply one mutation (its state component). -/
def applyLHOp (s : LevelHandler K) : LHOp K → LevelHandler K
  | .replace nts => (replaceTables s nts).1
  | .delete td => (deleteTables s td).1

/-- Apply a sequence of mutations. -/
def applyLHOps (s : LevelHandler K) (ops : List (LHOp K)) : LevelHandler K :=
  ops.foldl applyLHOp s

/-- The precondition `replaceTables` asserts of its argument (strict order);
deletions have none. -/
def opOrdered : LHOp K → Prop
  | .replace nts => tablesOrdered nts
  | .delete _ => True

/-- A kernel-reducible decision procedure for the adjacency chain of the
ordering invariant (the library instance for `Chain'` is built with tactics
and does not evaluate inside `decide`). -/
def decChainTables :
    (l : List (Table K)) →
      Decidable (l.Chain' fun a b : Table K => a.biggest < b.smallest)
  | [] => isTrue (by simp)
  | [a] => isTrue (by simp)
  | a :: b :: rest =>
    match decChainTables (b :: rest),
        inferInstanceAs (Decidable (a.biggest < b.smallest)) with
    | isTrue h1, isTrue h2 => isTrue (List.chain'_cons.mpr ⟨h2, h1⟩)
    | isFalse h1, _ => isFalse fun hc => h1 (List.chain'_cons.mp hc).2
    | _, isFalse h2 => isFalse fun hc => h2 (List.chain'_cons.mp hc).1

/-- Decidability of the ordering invariant, for concrete evaluation. -/
instance instDecidableTablesOrdered (l : List (Table K)) :
    Decidable (tablesOrdered l) :=
  @instDecidableAnd _ _ (List.decidableBAll _ l) (decChainTables l)

/-- Decidability of the size-accounting invariant. -/
instance instDecidableSizeInvariant (s : LevelHandler K) :
    Decidable (sizeInvariant s) :=
  inferInstanceAs (Decidable (s.totalSize = (s.tables.map Table.size).sum))

/-- Decidability of the per-operation precondition. -/
instance instDecidableOpOrdered : (op : LHOp K) → Decidable (opOrdered op)
  | .replace nts => inferInstanceAs (Decidable (tablesOrdered nts))
  | .delete _ => inferInstanceAs (Decidable True)

/-- `levelHandler.isCompactable(deltaSize)`:
`getTotalSize() >= maxTotalSize + deltaSize`. -/
def isCompactable (l : LevelHandler K) (deltaSize : Int) : Bool :=
  decide (l.maxTotalSize + deltaSize ≤ l.totalSize)

/-- Modelled from the spec: the `keyRange` type lives in compaction.go, which
is not among the sources.  "`inf` is a distinguished value that overlaps
everything; otherwise left/right are full (TS-suffixed) keys". -/
inductive KeyRange (K : Type) where
  | inf : KeyRange K
  | interval (left right : K) : KeyRange K
deriving DecidableEq

/-- Modelled from the spec: two non-inf ranges overlap iff
`a.left ≤ b.right && b.left ≤ a.right`; `inf` overlaps everything. -/
def krOverlaps : KeyRange K → KeyRange K → Bool
  | .inf, _ => true
  | _, .inf => true
  | .interval l1 r1, .interval l2 r2 => decide (l1 ≤ r2) && decide (l2 ≤ r1)

/-- Modelled from the spec: per-level compact status, "a set of `KeyRange`
values currently reserved by running compactions plus a `delta_size`
aggregate" (compaction.go is not among the sources). -/
structure LevelCompactStatus (K : Type) where
  ranges : List (KeyRange K)
  delSize : Int
deriving DecidableEq

/-- Modelled from the spec: `overlaps_with(level, kr)` is "true iff any
reserved range at `level` overlaps `kr`". -/
def lcsOverlapsWith (lcs : LevelCompactStatus K) (kr : KeyRange K) : Bool :=
  lcs.ranges.any fun r => krOverlaps r kr

/-- The slice of `levelsController` state that `pickCompactLevels` reads: the
level handlers, the per-level compact status, and the `NumLevelZeroTables`
option (the L0 compaction trigger). -/
structure LevelsController (K : Type) where
  levels : List (LevelHandler K)
  cstatusLevels : List (LevelCompactStatus K)
  numLevelZeroTables : Nat
deriving DecidableEq

/-- `cstatus.overlapsWith(level, kr)` on the controller; a level with no
status entry has no reserved ranges. -/
def cstatusOverlapsWith (lc : LevelsController K) (level : Nat) (kr : KeyRange K) : Bool :=
  match lc.cstatusLevels[level]? with
  | some s => lcsOverlapsWith s kr
  | none => false

/-- `cstatus.deltaSize(level)`. -/
def cstatusDeltaSize (lc : LevelsController K) (level : Nat) : Int :=
  match lc.cstatusLevels[level]? with
  | some s => s.delSize
  | none => 0

/-- The reserved compaction ranges at a level. -/
def reservedRanges (lc : LevelsController K) (level : Nat) : List (KeyRange K) :=
  match lc.cstatusLevels[level]? with
  | some s => s.ranges
  | none => []

/-- `lc.levels[0].numTables()`. -/
def numTablesL0 (lc : LevelsController K) : Nat :=
  match lc.levels[0]? with
  | some l => l.tables.length
  | none => 0

/-- `isL0Compactable`: `levels[0].numTables() >= NumLevelZeroTables`. -/
def isL0Compactable (lc : LevelsController K) : Bool :=
  decide (lc.numLevelZeroTables ≤ numTablesL0 lc)

/-- `compactionPriority`; the `float64` score is modelled as an exact
rational. -/
structure CompactionPriority where
  level : Nat
  score : Rat
deriving DecidableEq

/-- One iteration of the `pickCompactLevels` loop over levels `1 ≤ L`:
emits a priority when the level is compactable net of its compaction
delta. -/
def pickUpperEntry (lc : LevelsController K) (levelNum : Nat) :
    Option CompactionPriority :=
  match lc.levels[levelNum]? with
  | some l =>
    if isCompactable l (cstatusDeltaSize lc levelNum) then
      some ⟨levelNum,
        ((l.totalSize - cstatusDeltaSize lc levelNum : Int) : Rat) /
          (l.maxTotalSize : Rat)⟩
    else none
  | none => none

/-- `pickCompactLevels`: emit a level-0 priority when no reservation at L0
overlaps `infRange` and L0 is compactable; emit one priority per compactable
level `1 ≤ L < len(levels)`; sort descending by score (Go's unstable
`sort.Slice` with `score[i] > score[j]`, modelled by `mergeSort` on `≥`). -/
def pickCompactLevels (lc : LevelsController K) : List CompactionPriority :=
  let prios0 : List CompactionPriority :=
    if !cstatusOverlapsWith lc 0 KeyRange.inf && isL0Compactable lc then
      [⟨0, (numTablesL0 lc : Rat) / (lc.numLevelZeroTables : Rat)⟩]
    else []
  (prios0 ++
      (List.range' 1 (lc.levels.length - 1)).filterMap (pickUpperEntry lc)
    ).mergeSort fun a b => decide (b.score ≤ a.score)

/-- One observation of the shared state read by `addLevel0Table`'s stall loop:
level 0's table count and the level-1 handler. -/
structure StallObs (K : Type) where
  l0count : Nat
  l1 : LevelHandler K
deriving DecidableEq

/-- The guard on which the stall loop of `addLevel0Table` breaks:
`!lc.isL0Compactable() && !lc.levels[1].isCompactable(0)` (the L0 part is
`numTables >= NumLevelZeroTables` read off the observation). -/
def unstallCheck (trigger : Nat) (obs : StallObs K) : Bool :=
  !(decide (trigger ≤ obs.l0count)) && !(isCompactable obs.l1 0)

/-- Possible outcomes of `addLevel0Table` over a finite observation trace. -/
inductive AddL0Outcome where
  | manifestError : AddL0Outcome
  | admitted : AddL0Outcome
  | stillBlocked : AddL0Outcome
deriving DecidableEq

/-- The stall loop of `addLevel0Table` over a finite trace of observations of
the shared state (one per poll): wait until `unstallCheck` passes, then retry
`tryAddLevel0Table` — which succeeds exactly when the observed count is below
the stall limit — and re-enter the wait loop if it fails again.  An exhausted
trace means the call is still blocked. -/
def addLevel0TableWait (stall trigger : Nat) : List (StallObs K) → AddL0Outcome
  | [] => .stillBlocked
  | obs :: rest =>
    if unstallCheck trigger obs then
      if obs.l0count < stall then .admitted else addLevel0TableWait stall trigger rest
    else addLevel0TableWait stall trigger rest

/-- `addLevel0Table(t)`: append the manifest change first (a failure there is
the only returned error); then try to add, entering the stall loop when level
0 already holds `stall` tables. -/
def addLevel0Table (manifestOk : Bool) (stall trigger : Nat)
    (first : StallObs K) (laterObs : List (StallObs K)) : AddL0Outcome :=
  if manifestOk then
    if first.l0count < stall then .admitted
    else addLevel0TableWait stall trigger laterObs
  else .manifestError

/-- `compactDef` (the fields `buildChangeSet` reads). -/
structure CompactDef (K : Type) where
  thisLevel : LevelHandler K
  nextLevel : LevelHandler K
  top : List (Table K)
  bot : List (Table K)
deriving DecidableEq

/-- Manifest changes, as built by `makeTableCreateChange`,
`makeTableDeleteChange` and `makeTableMoveDownChange`. -/
inductive ManifestChange where
  | create (id : Nat) (level : Nat) : ManifestChange
  | delete (id : Nat) : ManifestChange
  | moveDown (id : Nat) (level : Nat) : ManifestChange
deriving DecidableEq

/-- `buildChangeSet(cd, newTables, moveDown)`. -/
def buildChangeSet (cd : CompactDef K) (newTables : List (Table K)) (moveDown : Bool) :
    List ManifestChange :=
  if moveDown then
    newTables.map fun t => ManifestChange.moveDown t.id cd.nextLevel.level
  else
    ((newTables.map fun t => ManifestChange.create t.id cd.nextLevel.level) ++
      cd.top.map fun t => ManifestChange.delete t.id) ++
      cd.bot.map fun t => ManifestChange.delete t.id

/-- The predicate of the binary search in `searchGuard`:
`bytes.Compare(key, guards[i]) < 0`. -/
def guardGT (guards : List K) (key : K) (i : Nat) : Bool :=
  match guards[i]? with
  | some g => decide (key < g)
  | none => false

/-- `searchGuard(key, guards)`: binary search for the first guard the key is
strictly below; `none` models the Go `nil` return for an out-of-range
index. -/
def searchGuard (key : K) (guards : List K) : Option K :=
  guards[sortSearch guards.length (guardGT guards key)]?

/-- `shouldFinishFile(key, guard, builder, maxSize)`: the builder state is
abstracted to the boolean `builder.ReachedCapacity(maxSize)`, and the `nil` /
empty guard to `none`. -/
def shouldFinishFile (key : K) (guard : Option K) (reachedCapacity : Bool) : Bool :=
  (match guard with
   | some g => decide (g < key)
   | none => false) || reachedCapacity

end Model

section Proofs

variable {K : Type} [LinearOrder K]

/-- Characterization of the Go binary search on `[i, j)` for a predicate that
is monotone below `j`: the result is the least index at which the predicate
holds (or `j` when it never does). -/
theorem goSearchGas_spec (f : Nat → Bool) :
    ∀ gas i j, j - i ≤ gas → i ≤ j →
      (∀ a b, i ≤ a → a ≤ b → b < j → f a = true → f b = true) →
      i ≤ goSearchGas f gas i j ∧ goSearchGas f gas i j ≤ j ∧
      (∀ k, i ≤ k → k < goSearchGas f gas i j → f k = false) ∧
      (goSearchGas f gas i j < j → f (goSearchGas f gas i j) = true) := by
  intro gas
  induction gas with
  | zero =>
    intro i j hg hij _
    have hji : i = j := by omega
    subst hji
    simp only [goSearchGas]
    exact ⟨le_refl i, le_refl i, fun k h1 h2 => absurd h2 (by omega),
      fun h => absurd h (by omega)⟩
  | succ g ih =>
    intro i j hg hij hmono
    by_cases hlt : i < j
    · have hm1 : i ≤ (i + j) / 2 := by omega
      have hm2 : (i + j) / 2 < j := by omega
      cases hf : f ((i + j) / 2) with
      | true =>
        have heq : goSearchGas f (g + 1) i j = goSearchGas f g i ((i + j) / 2) := by
          simp [goSearchGas, hlt, hf]
        have hrec := ih i ((i + j) / 2) (by omega) hm1
          (fun a b ha hab hb hfa => hmono a b ha hab (by omega) hfa)
        rw [heq]
        refine ⟨hrec.1, le_trans hrec.2.1 (le_of_lt hm2), hrec.2.2.1, ?_⟩
        intro _
        rcases lt_or_eq_of_le hrec.2.1 with h | h
        · exact hrec.2.2.2 h
        · rw [h]; exact hf
      | false =>
        have heq : goSearchGas f (g + 1) i j = goSearchGas f g ((i + j) / 2 + 1) j := by
          simp [goSearchGas, hlt, hf]
        have hrec := ih ((i + j) / 2 + 1) j (by omega) (by omega)
          (fun a b ha hab hb hfa => hmono a b (by omega) hab hb hfa)
        rw [heq]
        refine ⟨by omega, hrec.2.1, ?_, hrec.2.2.2⟩
        intro k hk1 hk2
        by_cases hkm : (i + j) / 2 + 1 ≤ k
        · exact hrec.2.2.1 k hkm hk2
        · cases hfk : f k with
          | true =>
            have := hmono k ((i + j) / 2) hk1 (by omega) hm2 hfk
            rw [this] at hf
            exact absurd hf (by simp)
          | false => rfl
    · have hji : i = j := by omega
      subst hji
      simp only [goSearchGas, if_neg hlt]
      exact ⟨le_refl i, le_refl i, fun k h1 h2 => absurd h2 (by omega),
        fun h => absurd h (by omega)⟩

/-- `sort.Search(n, f)` for a predicate monotone on `[0, n)` returns the least
index at which `f` holds, or `n` when it never does. -/
theorem sortSearch_spec (n : Nat) (f : Nat → Bool)
    (hmono : ∀ a b, a ≤ b → b < n → f a = true → f b = true) :
    sortSearch n f ≤ n ∧
    (∀ k, k < sortSearch n f → f k = false) ∧
    (sortSearch n f < n → f (sortSearch n f) = true) := by
  have h := goSearchGas_spec f n 0 n (by omega) (by omega)
    (fun a b _ hab hb hfa => hmono a b hab hb hfa)
  exact ⟨h.2.1, fun k hk => h.2.2.1 k (Nat.zero_le k) hk, h.2.2.2⟩

/-- An ordered table list is pairwise separated, not just adjacently so. -/
theorem tablesOrdered_pairwise : ∀ {l : List (Table K)}, tablesOrdered l →
    l.Pairwise fun a b => a.biggest < b.smallest
  | [], _ => List.Pairwise.nil
  | a :: tl, ⟨hwf, hchain⟩ => by
    rw [List.chain'_cons'] at hchain
    have htl : tablesOrdered tl :=
      ⟨fun t ht => hwf t (List.mem_cons_of_mem a ht), hchain.2⟩
    have hp := tablesOrdered_pairwise htl
    refine List.Pairwise.cons ?_ hp
    intro y hy
    cases tl with
    | nil => cases hy
    | cons b tl2 =>
      have hab : a.biggest < b.smallest := hchain.1 b rfl
      rcases List.mem_cons.mp hy with rfl | hy2
      · exact hab
      · have hby : b.biggest < y.smallest := (List.pairwise_cons.mp hp).1 y hy2
        have hbwf : b.smallest ≤ b.biggest := hwf b (by simp)
        exact lt_trans (lt_of_lt_of_le hab hbwf) hby

/-- In an ordered table list the biggest keys ascend with the index. -/
theorem biggest_mono {l : List (Table K)} (h : tablesOrdered l) {i j : Nat}
    (hij : i ≤ j) (hj : j < l.length) :
    (l.get ⟨i, lt_of_le_of_lt hij hj⟩).biggest ≤ (l.get ⟨j, hj⟩).biggest := by
  rcases eq_or_lt_of_le hij with rfl | hlt
  · exact le_refl _
  · have hp := List.pairwise_iff_get.mp (tablesOrdered_pairwise h)
    have h1 := hp ⟨i, lt_of_le_of_lt hij hj⟩ ⟨j, hj⟩ hlt
    have h2 : (l.get ⟨j, hj⟩).smallest ≤ (l.get ⟨j, hj⟩).biggest :=
      h.1 _ (List.get_mem l j hj)
    exact le_trans (le_of_lt h1) h2

/-- In an ordered table list the smallest keys ascend with the index. -/
theorem smallest_mono {l : List (Table K)} (h : tablesOrdered l) {i j : Nat}
    (hij : i ≤ j) (hj : j < l.length) :
    (l.get ⟨i, lt_of_le_of_lt hij hj⟩).smallest ≤ (l.get ⟨j, hj⟩).smallest := by
  rcases eq_or_lt_of_le hij with rfl | hlt
  · exact le_refl _
  · have hp := List.pairwise_iff_get.mp (tablesOrdered_pairwise h)
    have h1 := hp ⟨i, lt_of_le_of_lt hij hj⟩ ⟨j, hj⟩ hlt
    have h2 : (l.get ⟨i, lt_of_le_of_lt hij hj⟩).smallest ≤
        (l.get ⟨i, lt_of_le_of_lt hij hj⟩).biggest :=
      h.1 _ (List.get_mem l i (lt_of_le_of_lt hij hj))
    exact le_trans h2 (le_of_lt h1)

/-- Characterization of the `left` search: index `k` is strictly below the
result iff table `k`'s biggest key is strictly below the search key. -/
theorem biggestGE_search (l : List (Table K)) (key : K) (hord : tablesOrdered l) :
    sortSearch l.length (biggestGE l key) ≤ l.length ∧
    ∀ k (hk : k < l.length),
      ((l.get ⟨k, hk⟩).biggest < key ↔ k < sortSearch l.length (biggestGE l key)) := by
  have hmono : ∀ a b, a ≤ b → b < l.length →
      biggestGE l key a = true → biggestGE l key b = true := by
    intro a b hab hb hfa
    have ha : a < l.length := lt_of_le_of_lt hab hb
    unfold biggestGE at hfa ⊢
    rw [List.getElem?_eq_getElem ha] at hfa
    rw [List.getElem?_eq_getElem hb]
    simp only [decide_eq_true_eq] at hfa ⊢
    have := biggest_mono hord hab hb
    simp only [List.get_eq_getElem] at this
    exact le_trans hfa this
  obtain ⟨hle, hbelow, hat⟩ := sortSearch_spec l.length (biggestGE l key) hmono
  refine ⟨hle, fun k hk => ⟨?_, ?_⟩⟩
  · intro hbig
    by_contra hge
    push_neg at hge
    have hrn : sortSearch l.length (biggestGE l key) < l.length := lt_of_le_of_lt hge hk
    have hfr := hat hrn
    have hfk := hmono _ k hge hk hfr
    unfold biggestGE at hfk
    rw [List.getElem?_eq_getElem hk] at hfk
    simp only [decide_eq_true_eq] at hfk
    simp only [List.get_eq_getElem] at hbig
    exact absurd hfk (not_le_of_lt hbig)
  · intro hkr
    have hfk := hbelow k hkr
    unfold biggestGE at hfk
    rw [List.getElem?_eq_getElem hk] at hfk
    simp only [decide_eq_false_iff_not, decide_eq_true_eq] at hfk
    simp only [List.get_eq_getElem]
    exact lt_of_not_le hfk

/-- Characterization of the `right` search: the result is at most index `k`
iff table `k`'s smallest key is strictly above the search key. -/
theorem smallestGT_search (l : List (Table K)) (key : K) (hord : tablesOrdered l) :
    sortSearch l.length (smallestGT l key) ≤ l.length ∧
    ∀ k (hk : k < l.length),
      (key < (l.get ⟨k, hk⟩).smallest ↔ sortSearch l.length (smallestGT l key) ≤ k) := by
  have hmono : ∀ a b, a ≤ b → b < l.length →
      smallestGT l key a = true → smallestGT l key b = true := by
    intro a b hab hb hfa
    have ha : a < l.length := lt_of_le_of_lt hab hb
    unfold smallestGT at hfa ⊢
    rw [List.getElem?_eq_getElem ha] at hfa
    rw [List.getElem?_eq_getElem hb]
    simp only [decide_eq_true_eq] at hfa ⊢
    have := smallest_mono hord hab hb
    simp only [List.get_eq_getElem] at this
    exact lt_of_lt_of_le hfa this
  obtain ⟨hle, hbelow, hat⟩ := sortSearch_spec l.length (smallestGT l key) hmono
  refine ⟨hle, fun k hk => ⟨?_, ?_⟩⟩
  · intro hsmall
    by_contra hge
    push_neg at hge
    have hfk := hbelow k hge
    unfold smallestGT at hfk
    rw [List.getElem?_eq_getElem hk] at hfk
    simp only [decide_eq_false_iff_not] at hfk
    simp only [List.get_eq_getElem] at hsmall
    exact hfk hsmall
  · intro hrk
    have hrn : sortSearch l.length (smallestGT l key) < l.length := lt_of_le_of_lt hrk hk
    have hfr := hat hrn
    have hfk := hmono _ k hrk hk hfr
    unfold smallestGT at hfk
    rw [List.getElem?_eq_getElem hk] at hfk
    simp only [decide_eq_true_eq] at hfk
    simp only [List.get_eq_getElem]
    exact hfk

/-- An element of a prefix is in the original list at an index below the cut
point. -/
theorem mem_take_idx {α : Type} {l : List α} {n : Nat} {x : α} (hx : x ∈ l.take n) :
    ∃ i, ∃ (h : i < l.length), i < n ∧ l.get ⟨i, h⟩ = x := by
  obtain ⟨i, hi, rfl⟩ := List.getElem_of_mem hx
  have hi2 := hi
  rw [List.length_take, Nat.lt_min] at hi2
  exact ⟨i, hi2.2, hi2.1, by simp [List.get_eq_getElem]⟩

/-- An element of a suffix is in the original list at an index at or above the
cut point. -/
theorem mem_drop_idx {α : Type} {l : List α} {n : Nat} {x : α} (hx : x ∈ l.drop n) :
    ∃ i, ∃ (h : i < l.length), n ≤ i ∧ l.get ⟨i, h⟩ = x := by
  obtain ⟨j, hj, rfl⟩ := List.getElem_of_mem hx
  have hlen : n + j < l.length := by
    rw [List.length_drop] at hj
    omega
  exact ⟨n + j, hlen, by omega, by simp [List.get_eq_getElem]⟩

/-- In a nonempty ordered table list every smallest key is at least the head's
smallest key. -/
theorem ordered_smallest_ge_head {l : List (Table K)} (h : tablesOrdered l)
    (hne : l ≠ []) :
    ∀ y ∈ l, (l.get ⟨0, List.length_pos.mpr hne⟩).smallest ≤ y.smallest := by
  intro y hy
  obtain ⟨i, hi, rfl⟩ := List.getElem_of_mem hy
  have := smallest_mono h (Nat.zero_le i) hi
  simpa [List.get_eq_getElem] using this

/-- In a nonempty ordered table list every biggest key is at most the last
table's biggest key. -/
theorem ordered_biggest_le_last {l : List (Table K)} (h : tablesOrdered l)
    (hne : l ≠ []) : ∀ x ∈ l, x.biggest ≤ (l.getLast hne).biggest := by
  intro x hx
  obtain ⟨i, hi, rfl⟩ := List.getElem_of_mem hx
  rw [List.getLast_eq_get]
  have := biggest_mono h (by omega : i ≤ l.length - 1) (by omega)
  simpa [List.get_eq_getElem] using this

/-- `getTablesInRange` on an ordered table list and a well-formed key range
finds exactly the indices of the tables whose ranges intersect
`[start, stop]`, as a half-open index interval. -/
theorem getTablesInRange_spec (tbls : List (Table K)) (start stop : K)
    (hord : tablesOrdered tbls) (hse : start ≤ stop) :
    (getTablesInRange tbls start stop).1 ≤ (getTablesInRange tbls start stop).2 ∧
    (getTablesInRange tbls start stop).2 ≤ tbls.length ∧
    ∀ k (hk : k < tbls.length),
      (((getTablesInRange tbls start stop).1 ≤ k ∧
          k < (getTablesInRange tbls start stop).2) ↔
        (start ≤ (tbls.get ⟨k, hk⟩).biggest ∧ (tbls.get ⟨k, hk⟩).smallest ≤ stop)) := by
  obtain ⟨hlb, hleft⟩ := biggestGE_search tbls start hord
  obtain ⟨hrb, hright⟩ := smallestGT_search tbls stop hord
  have hchar : ∀ k (hk : k < tbls.length),
      ((sortSearch tbls.length (biggestGE tbls start) ≤ k ∧
          k < sortSearch tbls.length (smallestGT tbls stop)) ↔
        (start ≤ (tbls.get ⟨k, hk⟩).biggest ∧ (tbls.get ⟨k, hk⟩).smallest ≤ stop)) := by
    intro k hk
    constructor
    · rintro ⟨h1, h2⟩
      constructor
      · by_contra hcon
        push_neg at hcon
        exact absurd ((hleft k hk).mp hcon) (by omega)
      · by_contra hcon
        push_neg at hcon
        exact absurd ((hright k hk).mp hcon) (by omega)
    · rintro ⟨h1, h2⟩
      constructor
      · by_contra hcon
        push_neg at hcon
        have := (hleft k hk).mpr hcon
        exact absurd h1 (not_le_of_lt this)
      · by_contra hcon
        push_neg at hcon
        have := (hright k hk).mpr hcon
        exact absurd h2 (not_le_of_lt this)
  refine ⟨?_, hrb, hchar⟩
  by_contra hcon
  push_neg at hcon
  have hRn : sortSearch tbls.length (smallestGT tbls stop) < tbls.length :=
    lt_of_lt_of_le hcon hlb
  have h1 : stop < (tbls.get ⟨_, hRn⟩).smallest := (hright _ hRn).mpr (le_refl _)
  have h2 : (tbls.get ⟨_, hRn⟩).biggest < start := (hleft _ hRn).mpr hcon
  have hwf := hord.1 _ (List.get_mem tbls _ hRn)
  exact absurd (lt_trans (lt_of_le_of_lt hwf h2) (lt_of_le_of_lt hse h1))
    (lt_irrefl _)

/-- Splitting a sum of mapped values over a filter and its complement. -/
theorem sum_filter_split {α : Type} (p : α → Bool) (f : α → Int) :
    ∀ l : List α,
      ((l.filter p).map f).sum + ((l.filter fun a => !(p a)).map f).sum =
        (l.map f).sum := by
  intro l
  induction l with
  | nil => simp
  | cons a tl ih =>
    by_cases hp : p a
    · simp only [List.filter_cons, hp, if_pos, List.map_cons, List.sum_cons,
        Bool.not_true, Bool.false_eq_true, if_false]
      rw [← ih]
      ring
    · have hp2 : p a = false := by simp [hp]
      simp only [List.filter_cons, hp2, Bool.false_eq_true, if_false, Bool.not_false,
        if_true, List.map_cons, List.sum_cons]
      rw [← ih]
      ring

/-- `deleteTables` preserves the ordering invariant (filtering is a
sublist). -/
theorem deleteTables_ordered (s : LevelHandler K) (td : List (Table K))
    (hord : tablesOrdered s.tables) :
    tablesOrdered ((deleteTables s td).1).tables := by
  constructor
  · intro t ht
    exact hord.1 t (List.mem_of_mem_filter ht)
  · exact (List.Pairwise.sublist (List.filter_sublist _)
      (tablesOrdered_pairwise hord)).chain'

/-- `deleteTables` preserves the size-accounting invariant. -/
theorem deleteTables_size (s : LevelHandler K) (td : List (Table K))
    (hsz : sizeInvariant s) : sizeInvariant ((deleteTables s td).1) := by
  unfold sizeInvariant at hsz ⊢
  unfold deleteTables
  simp only
  rw [hsz]
  have := sum_filter_split (fun t => (td.map Table.id).contains t.id) Table.size s.tables
  omega

/-- Splicing an ordered batch of tables over the overlap interval found by
`getTablesInRange` keeps the table list ordered, provided every new table's
range lies inside `[start, stop]`. -/
theorem splice_ordered (tbls nts : List (Table K)) (start stop : K)
    (hord : tablesOrdered tbls) (hnew : tablesOrdered nts)
    (hhead : ∀ y ∈ nts, start ≤ y.smallest)
    (hlast : ∀ x ∈ nts, x.biggest ≤ stop)
    (hse : start ≤ stop) :
    tablesOrdered (tbls.take (getTablesInRange tbls start stop).1 ++ nts ++
      tbls.drop (getTablesInRange tbls start stop).2) := by
  obtain ⟨hlb, hleftc⟩ := biggestGE_search tbls start hord
  obtain ⟨hrb, hrightc⟩ := smallestGT_search tbls stop hord
  have hA : ∀ x ∈ tbls.take (getTablesInRange tbls start stop).1,
      x.biggest < start := by
    intro x hx
    obtain ⟨i, hi, hiL, rfl⟩ := mem_take_idx hx
    exact (hleftc i hi).mpr hiL
  have hC : ∀ y ∈ tbls.drop (getTablesInRange tbls start stop).2,
      stop < y.smallest := by
    intro y hy
    obtain ⟨i, hi, hiR, rfl⟩ := mem_drop_idx hy
    exact (hrightc i hi).mpr hiR
  constructor
  · intro t ht
    rcases List.mem_append.mp ht with ht2 | ht2
    · rcases List.mem_append.mp ht2 with ht3 | ht3
      · exact hord.1 t ((List.take_sublist _ _).mem ht3)
      · exact hnew.1 t ht3
    · exact hord.1 t ((List.drop_sublist _ _).mem ht2)
  · apply List.Pairwise.chain'
    rw [List.pairwise_append, List.pairwise_append]
    refine ⟨⟨List.Pairwise.sublist (List.take_sublist _ _)
        (tablesOrdered_pairwise hord),
      tablesOrdered_pairwise hnew, ?_⟩,
      List.Pairwise.sublist (List.drop_sublist _ _) (tablesOrdered_pairwise hord),
      ?_⟩
    · intro x hx y hy
      exact lt_of_lt_of_le (hA x hx) (hhead y hy)
    · intro x hx y hy
      rcases List.mem_append.mp hx with hx2 | hx2
      · exact lt_trans (lt_of_lt_of_le (hA x hx2) hse) (hC y hy)
      · exact lt_of_le_of_lt (hlast x hx2) (hC y hy)

/-- Sum decomposition of the spliced table list. -/
theorem splice_sum (tbls nts : List (Table K)) (L R : Nat) (hLR : L ≤ R)
    (hR : R ≤ tbls.length) :
    ((tbls.take L ++ nts ++ tbls.drop R).map Table.size).sum =
      (tbls.map Table.size).sum + (nts.map Table.size).sum -
        ((((tbls.drop L).take (R - L)).map Table.size).sum) := by
  have h1 : (tbls.map Table.size).sum =
      ((tbls.take L).map Table.size).sum +
        ((((tbls.drop L).take (R - L)).map Table.size).sum +
          ((tbls.drop R).map Table.size).sum) := by
    conv_lhs => rw [← List.take_append_drop L tbls]
    rw [List.map_append, List.sum_append]
    congr 1
    conv_lhs => rw [← List.take_append_drop (R - L) (tbls.drop L)]
    rw [List.map_append, List.sum_append, List.drop_drop]
    have hLR2 : L + (R - L) = R := by omega
    rw [hLR2]
  rw [List.map_append, List.map_append, List.sum_append, List.sum_append, h1]
  ring

/-- `replaceTables` preserves the ordering invariant when its argument is
ordered. -/
theorem replaceTables_ordered (s : LevelHandler K) (nts : List (Table K))
    (hord : tablesOrdered s.tables) (hnew : tablesOrdered nts) :
    tablesOrdered ((replaceTables s nts).1).tables := by
  match nts with
  | [] => exact hord
  | t0 :: rest =>
    have hne : (t0 :: rest) ≠ [] := List.cons_ne_nil t0 rest
    have hhead : ∀ y ∈ t0 :: rest, t0.smallest ≤ y.smallest := by
      have := ordered_smallest_ge_head hnew hne
      simpa using this
    have hlast : ∀ x ∈ t0 :: rest,
        x.biggest ≤ ((t0 :: rest).getLast hne).biggest :=
      ordered_biggest_le_last hnew hne
    have hse : t0.smallest ≤ ((t0 :: rest).getLast hne).biggest :=
      le_trans (hnew.1 t0 (List.mem_cons_self t0 rest)) (hlast t0 (List.mem_cons_self t0 rest))
    exact splice_ordered s.tables (t0 :: rest) t0.smallest
      (((t0 :: rest).getLast hne).biggest) hord hnew hhead hlast hse

/-- `replaceTables` preserves the size-accounting invariant when both the
handler and its argument are ordered. -/
theorem replaceTables_size (s : LevelHandler K) (nts : List (Table K))
    (hord : tablesOrdered s.tables) (hnew : tablesOrdered nts)
    (hsz : sizeInvariant s) : sizeInvariant ((replaceTables s nts).1) := by
  match nts with
  | [] => exact hsz
  | t0 :: rest =>
    have hne : (t0 :: rest) ≠ [] := List.cons_ne_nil t0 rest
    have hlast : ∀ x ∈ t0 :: rest,
        x.biggest ≤ ((t0 :: rest).getLast hne).biggest :=
      ordered_biggest_le_last hnew hne
    have hse : t0.smallest ≤ ((t0 :: rest).getLast hne).biggest :=
      le_trans (hnew.1 t0 (List.mem_cons_self t0 rest)) (hlast t0 (List.mem_cons_self t0 rest))
    obtain ⟨hLR, hRlen, _⟩ := getTablesInRange_spec s.tables t0.smallest
      (((t0 :: rest).getLast hne).biggest) hord hse
    unfold sizeInvariant at hsz ⊢
    simp only [replaceTables]
    rw [splice_sum s.tables (t0 :: rest) _ _ hLR hRlen, hsz]

/-- Characterization of the guard search on a sorted guard list: the result
index is at most `k` iff guard `k` is strictly above the key. -/
theorem guardGT_search (guards : List K) (key : K)
    (hsorted : guards.Sorted (· ≤ ·)) :
    sortSearch guards.length (guardGT guards key) ≤ guards.length ∧
    ∀ k (hk : k < guards.length),
      (key < guards.get ⟨k, hk⟩ ↔
        sortSearch guards.length (guardGT guards key) ≤ k) := by
  have hmono : ∀ a b, a ≤ b → b < guards.length →
      guardGT guards key a = true → guardGT guards key b = true := by
    intro a b hab hb hfa
    have ha : a < guards.length := lt_of_le_of_lt hab hb
    unfold guardGT at hfa ⊢
    rw [List.getElem?_eq_getElem ha] at hfa
    rw [List.getElem?_eq_getElem hb]
    simp only [decide_eq_true_eq] at hfa ⊢
    have hrel := List.Sorted.rel_get_of_le hsorted
      (show (⟨a, ha⟩ : Fin guards.length) ≤ ⟨b, hb⟩ from hab)
    simp only [List.get_eq_getElem] at hrel
    exact lt_of_lt_of_le hfa hrel
  obtain ⟨hle, hbelow, hat⟩ := sortSearch_spec guards.length (guardGT guards key) hmono
  refine ⟨hle, fun k hk => ⟨?_, ?_⟩⟩
  · intro hlt
    by_contra hge
    push_neg at hge
    have hfk := hbelow k hge
    unfold guardGT at hfk
    rw [List.getElem?_eq_getElem hk] at hfk
    simp only [decide_eq_false_iff_not] at hfk
    simp only [List.get_eq_getElem] at hlt
    exact hfk hlt
  · intro hrk
    have hrn : sortSearch guards.length (guardGT guards key) < guards.length :=
      lt_of_le_of_lt hrk hk
    have hfk := hmono _ k hrk hk (hat hrn)
    unfold guardGT at hfk
    rw [List.getElem?_eq_getElem hk] at hfk
    simp only [decide_eq_true_eq] at hfk
    simpa [List.get_eq_getElem] using hfk

/-- C10: calling `replaceTables` with an empty new-tables list returns
immediately and leaves the handler entirely unchanged: no table is removed,
`totalSize` is untouched, and no reference count is incremented or
decremented (both effect lists are empty). -/
theorem claim_C10_replaceTables_empty_noop (s : LevelHandler K) :
    replaceTables s [] = (s, [], []) := rfl

/-- C9: `tryAddLevel0Table` requires `level == 0` (the assert, modelled by
`none`); at level 0 it returns `false` — changing nothing and touching no
reference count — exactly when the handler already holds at least
`numLevelZeroTablesStall` tables, and otherwise appends the table at the end,
increments exactly that table's reference count, and grows `totalSize` by the
table's size. -/
theorem claim_C9_tryAddLevel0Table (s : LevelHandler K) (t : Table K) (stall : Nat) :
    (s.level ≠ 0 → tryAddLevel0Table s t stall = none) ∧
    (s.level = 0 →
      ((tryAddLevel0Table s t stall = some (false, s, [])) ↔ stall ≤ s.tables.length) ∧
      (s.tables.length < stall →
        tryAddLevel0Table s t stall =
          some (true,
            { s with tables := s.tables ++ [t], totalSize := s.totalSize + t.size },
            [t]))) := by
  unfold tryAddLevel0Table
  constructor
  · intro h
    rw [if_neg h]
  · intro h
    rw [if_pos h]
    refine ⟨⟨?_, ?_⟩, ?_⟩
    · intro heq
      by_contra hc
      push_neg at hc
      rw [if_neg (not_le_of_lt hc)] at heq
      simp at heq
    · intro hle
      rw [if_pos hle]
    · intro hlt
      rw [if_neg (not_le_of_lt hlt)]

/-- Witness for C9: at level 0 with stall limit 2 and an empty table list the
add succeeds, appending the table and growing the size; the level-0
requirement and the non-stalled hypothesis are discharged at this input. -/
theorem claim_C9_tryAddLevel0Table_witness :
    tryAddLevel0Table (⟨[], 0, 0, 100⟩ : LevelHandler Nat) ⟨1, 2, 3, 10⟩ 2 =
      some (true, ⟨[] ++ [⟨1, 2, 3, 10⟩], 0 + 10, 0, 100⟩, [⟨1, 2, 3, 10⟩]) :=
  ((claim_C9_tryAddLevel0Table (⟨[], 0, 0, 100⟩ : LevelHandler Nat)
    ⟨1, 2, 3, 10⟩ 2).2 rfl).2 (by decide)

/-- C7: the built manifest change set consists of exactly one move-down per
new table when `moveDown` is set, and otherwise exactly one create per new
table plus one delete for every `top` table and every `bot` table, in that
order and with no other changes. -/
theorem claim_C7_buildChangeSet (cd : CompactDef K) (newTables : List (Table K)) :
    (buildChangeSet cd newTables true =
      newTables.map fun t => ManifestChange.moveDown t.id cd.nextLevel.level) ∧
    (buildChangeSet cd newTables false =
      ((newTables.map fun t => ManifestChange.create t.id cd.nextLevel.level) ++
        cd.top.map fun t => ManifestChange.delete t.id) ++
        cd.bot.map fun t => ManifestChange.delete t.id) ∧
    (buildChangeSet cd newTables true).length = newTables.length ∧
    (buildChangeSet cd newTables false).length =
      newTables.length + cd.top.length + cd.bot.length ∧
    (∀ c, c ∈ buildChangeSet cd newTables true ↔
      ∃ t ∈ newTables, c = ManifestChange.moveDown t.id cd.nextLevel.level) ∧
    (∀ c, c ∈ buildChangeSet cd newTables false ↔
      ((∃ t ∈ newTables, c = ManifestChange.create t.id cd.nextLevel.level) ∨
        (∃ t ∈ cd.top, c = ManifestChange.delete t.id) ∨
        (∃ t ∈ cd.bot, c = ManifestChange.delete t.id))) := by
  refine ⟨rfl, rfl, ?_, ?_, ?_, ?_⟩
  · simp [buildChangeSet]
  · simp only [buildChangeSet, Bool.false_eq_true, if_false, List.length_append,
      List.length_map]
  · intro c
    simp only [buildChangeSet, if_pos, List.mem_map]
    constructor
    · rintro ⟨t, ht, rfl⟩
      exact ⟨t, ht, rfl⟩
    · rintro ⟨t, ht, rfl⟩
      exact ⟨t, ht, rfl⟩
  · intro c
    simp only [buildChangeSet, Bool.false_eq_true, if_false, List.mem_append,
      List.mem_map]
    constructor
    · rintro ((⟨t, ht, rfl⟩ | ⟨t, ht, rfl⟩) | ⟨t, ht, rfl⟩)
      · exact Or.inl ⟨t, ht, rfl⟩
      · exact Or.inr (Or.inl ⟨t, ht, rfl⟩)
      · exact Or.inr (Or.inr ⟨t, ht, rfl⟩)
    · rintro (⟨t, ht, rfl⟩ | ⟨t, ht, rfl⟩ | ⟨t, ht, rfl⟩)
      · exact Or.inl (Or.inl ⟨t, ht, rfl⟩)
      · exact Or.inl (Or.inr ⟨t, ht, rfl⟩)
      · exact Or.inr ⟨t, ht, rfl⟩

/-- C8: `shouldFinishFile` returns true iff a guard is set and the current
key is strictly greater than it, or the builder has reached the maximum table
size; and `searchGuard` on a sorted guard list returns the first guard
strictly greater than the key, or `none` when every guard is at most the
key. -/
theorem claim_C8_shouldFinishFile_searchGuard (key : K) (guard : Option K)
    (reached : Bool) (guards : List K) (hsorted : guards.Sorted (· ≤ ·)) :
    (shouldFinishFile key guard reached = true ↔
      (∃ g, guard = some g ∧ g < key) ∨ reached = true) ∧
    (searchGuard key guards = none ↔ ∀ g ∈ guards, g ≤ key) ∧
    (∀ g, searchGuard key guards = some g →
      g ∈ guards ∧ key < g ∧ ∀ g2 ∈ guards, key < g2 → g ≤ g2) := by
  obtain ⟨hle, hchar⟩ := guardGT_search guards key hsorted
  refine ⟨?_, ⟨?_, ?_⟩, ?_⟩
  · cases guard with
    | none => simp [shouldFinishFile]
    | some g => simp [shouldFinishFile]
  · intro hnone
    rw [searchGuard, List.getElem?_eq_none_iff] at hnone
    intro g hg
    obtain ⟨k, hk, rfl⟩ := List.getElem_of_mem hg
    by_contra hc
    push_neg at hc
    have := (hchar k hk).mp (by simpa [List.get_eq_getElem] using hc)
    omega
  · intro hall
    rw [searchGuard, List.getElem?_eq_none_iff]
    by_contra hc
    push_neg at hc
    have hlt := (hchar _ hc).mpr (le_refl _)
    exact absurd (hall _ (List.get_mem guards _ hc)) (not_le_of_lt hlt)
  · intro g hg
    rw [searchGuard, List.getElem?_eq_some_iff] at hg
    obtain ⟨hrn, hgeq⟩ := hg
    subst hgeq
    refine ⟨List.getElem_mem hrn, ?_, ?_⟩
    · have := (hchar _ hrn).mpr (le_refl _)
      simpa [List.get_eq_getElem] using this
    · intro g2 hg2 hkg2
      obtain ⟨k, hk, rfl⟩ := List.getElem_of_mem hg2
      have hrk := (hchar k hk).mp (by simpa [List.get_eq_getElem] using hkg2)
      have hrel := List.Sorted.rel_get_of_le hsorted
        (show (⟨_, hrn⟩ : Fin guards.length) ≤ ⟨k, hk⟩ from hrk)
      simpa [List.get_eq_getElem] using hrel

/-- Witness for C8: key 4 against sorted guards `[3, 5]` with no capacity
pressure; `searchGuard` returns 5, the first guard above 4, and
`shouldFinishFile` fires on a set guard 3 with key 4. -/
theorem claim_C8_witness :
    ([3, 5] : List Nat).Sorted (· ≤ ·) ∧
    (shouldFinishFile (4 : Nat) (some 3) false = true ↔
      (∃ g, (some 3 : Option Nat) = some g ∧ g < 4) ∨ false = true) ∧
    ((searchGuard (4 : Nat) [3, 5] = none ↔ ∀ g ∈ ([3, 5] : List Nat), g ≤ 4) ∧
      searchGuard (4 : Nat) [3, 5] = some 5) :=
  ⟨by decide,
    (claim_C8_shouldFinishFile_searchGuard (4 : Nat) (some 3) false [3, 5]
      (by decide)).1,
    (claim_C8_shouldFinishFile_searchGuard (4 : Nat) (some 3) false [3, 5]
      (by decide)).2.1,
    by decide⟩

/-- Counterexample to C1 as stated: a level-1 handler with a single ordered
table covering `[5, 10]`, queried at key 3.  No table's range contains 3, so
the claim demands the empty set, but `refTablesForKey` returns the table
(the binary search only compares against `biggest` and never checks
`smallest`). -/
theorem claim_C1_counterexample :
    tablesOrdered ([⟨1, 5, 10, 100⟩] : List (Table Nat)) ∧
    (∀ t ∈ ([⟨1, 5, 10, 100⟩] : List (Table Nat)),
      ¬(t.smallest ≤ 3 ∧ 3 ≤ t.biggest)) ∧
    refTablesForKey (⟨[⟨1, 5, 10, 100⟩], 100, 1, 1000⟩ : LevelHandler Nat) 3 =
      [⟨1, 5, 10, 100⟩] := by
  decide

/-- C1 (amended): at level ≥ 1 on an ordered table list, `refTablesForKey`
returns the first table whose biggest key is at least `k` — in particular the
unique table whose range contains `k`, whenever such a table exists — and the
empty set exactly when `k` is strictly greater than every table's biggest
key.  (The returned table's range need not contain `k` when `k` falls in a
gap.) -/
theorem claim_C1_refTablesForKey_amended (s : LevelHandler K) (key : K)
    (hlevel : s.level ≠ 0) (hord : tablesOrdered s.tables) :
    (refTablesForKey s key = [] ↔ ∀ t ∈ s.tables, t.biggest < key) ∧
    (∀ t, refTablesForKey s key = [t] →
      t ∈ s.tables ∧ key ≤ t.biggest ∧
        ∀ t2 ∈ s.tables, key ≤ t2.biggest → t.biggest ≤ t2.biggest) ∧
    (∀ i (hi : i < s.tables.length),
      (s.tables.get ⟨i, hi⟩).smallest ≤ key →
      key ≤ (s.tables.get ⟨i, hi⟩).biggest →
      refTablesForKey s key = [s.tables.get ⟨i, hi⟩]) := by
  obtain ⟨hrle, hchar⟩ := biggestGE_search s.tables key hord
  have hunfold : refTablesForKey s key =
      match s.tables[sortSearch s.tables.length (biggestGE s.tables key)]? with
      | none => []
      | some t => [t] := by
    rw [refTablesForKey, if_neg hlevel, refLevelNTable]
  refine ⟨⟨?_, ?_⟩, ?_, ?_⟩
  · intro hempty t ht
    obtain ⟨k, hk, rfl⟩ := List.getElem_of_mem ht
    rw [hunfold] at hempty
    cases hsome : s.tables[sortSearch s.tables.length (biggestGE s.tables key)]? with
    | some t2 => rw [hsome] at hempty; simp at hempty
    | none =>
      rw [List.getElem?_eq_none_iff] at hsome
      have : k < sortSearch s.tables.length (biggestGE s.tables key) := by omega
      have := (hchar k hk).mpr this
      simpa [List.get_eq_getElem] using this
  · intro hall
    rw [hunfold]
    cases hsome : s.tables[sortSearch s.tables.length (biggestGE s.tables key)]? with
    | none => rfl
    | some t2 =>
      rw [List.getElem?_eq_some_iff] at hsome
      obtain ⟨hrn, rfl⟩ := hsome
      have hbig := hall _ (List.getElem_mem hrn)
      have := (hchar _ hrn).mp (by simpa [List.get_eq_getElem] using hbig)
      omega
  · intro t heq
    rw [hunfold] at heq
    cases hsome : s.tables[sortSearch s.tables.length (biggestGE s.tables key)]? with
    | none => rw [hsome] at heq; simp at heq
    | some t2 =>
      rw [hsome] at heq
      simp only [List.cons.injEq] at heq
      obtain ⟨rfl, -⟩ := heq
      rw [List.getElem?_eq_some_iff] at hsome
      obtain ⟨hrn, rfl⟩ := hsome
      refine ⟨List.getElem_mem hrn, ?_, ?_⟩
      · by_contra hc
        push_neg at hc
        have := (hchar _ hrn).mp (by simpa [List.get_eq_getElem] using hc)
        omega
      · intro t2 ht2 hkey2
        obtain ⟨k, hk, rfl⟩ := List.getElem_of_mem ht2
        have hnot : ¬(k < sortSearch s.tables.length (biggestGE s.tables key)) := by
          intro hlt
          have := (hchar k hk).mpr hlt
          simp only [List.get_eq_getElem] at this
          exact absurd hkey2 (not_le_of_lt this)
        push_neg at hnot
        have := biggest_mono hord hnot hk
        simpa [List.get_eq_getElem] using this
  · intro i hi hsm hbg
    have hieq : sortSearch s.tables.length (biggestGE s.tables key) = i := by
      have h1 : ¬(i < sortSearch s.tables.length (biggestGE s.tables key)) := by
        intro hlt
        have := (hchar i hi).mpr hlt
        exact absurd hbg (not_le_of_lt this)
      by_contra hne
      have hlt : sortSearch s.tables.length (biggestGE s.tables key) < i := by omega
      have hrn : sortSearch s.tables.length (biggestGE s.tables key) <
          s.tables.length := by omega
      have hbgr : key ≤ (s.tables.get ⟨_, hrn⟩).biggest := by
        by_contra hc
        push_neg at hc
        have := (hchar _ hrn).mp hc
        omega
      have hpw := List.pairwise_iff_get.mp (tablesOrdered_pairwise hord)
      have := hpw ⟨_, hrn⟩ ⟨i, hi⟩ hlt
      exact absurd hsm (not_le_of_lt (lt_of_le_of_lt hbgr this))
    rw [hunfold, hieq, List.getElem?_eq_getElem hi]
    simp [List.get_eq_getElem]

/-- Witness for C1's amended theorem: level-1 handler with tables `[0,1]` and
`[5, 10]`; key 6 is contained in the second table, and the theorem returns
exactly that table. -/
theorem claim_C1_witness :
    ((⟨[⟨1, 0, 1, 10⟩, ⟨2, 5, 10, 100⟩], 110, 1, 1000⟩ :
        LevelHandler Nat).level ≠ 0) ∧
    tablesOrdered ([⟨1, 0, 1, 10⟩, ⟨2, 5, 10, 100⟩] : List (Table Nat)) ∧
    refTablesForKey
      (⟨[⟨1, 0, 1, 10⟩, ⟨2, 5, 10, 100⟩], 110, 1, 1000⟩ : LevelHandler Nat) 6 =
      [([⟨1, 0, 1, 10⟩, ⟨2, 5, 10, 100⟩] : List (Table Nat)).get ⟨1, by decide⟩] :=
  ⟨by decide, by decide,
    (claim_C1_refTablesForKey_amended
        (⟨[⟨1, 0, 1, 10⟩, ⟨2, 5, 10, 100⟩], 110, 1, 1000⟩ : LevelHandler Nat) 6
        (by decide) (by decide)).2.2 1 (by decide) (by decide) (by decide)⟩

/-- C2: `replaceTables` on an invariant-satisfying level-(≥1) handler and a
nonempty, strictly ordered batch computes `kr = [first.smallest,
last.biggest]`, finds the half-open index interval `[left, right)` of exactly
the existing tables overlapping `kr`, splices the batch in place of
`tables[left..right)`, grows `totalSize` by the sum of the new sizes and
shrinks it by the sum of the replaced sizes, increments the new tables'
reference counts, and defers dereference of exactly the replaced tables. -/
theorem claim_C2_replaceTables (s : LevelHandler K) (t0 : Table K)
    (rest : List (Table K)) (L R : Nat) (hlevel : 1 ≤ s.level)
    (hord : tablesOrdered s.tables) (hnew : tablesOrdered (t0 :: rest))
    (hLReq : getTablesInRange s.tables t0.smallest
      (((t0 :: rest).getLast (List.cons_ne_nil t0 rest)).biggest) = (L, R)) :
    L ≤ R ∧ R ≤ s.tables.length ∧
    (∀ k (hk : k < s.tables.length),
      ((L ≤ k ∧ k < R) ↔
        (t0.smallest ≤ (s.tables.get ⟨k, hk⟩).biggest ∧
          (s.tables.get ⟨k, hk⟩).smallest ≤
            (((t0 :: rest).getLast (List.cons_ne_nil t0 rest)).biggest)))) ∧
    (replaceTables s (t0 :: rest)).1.tables =
      s.tables.take L ++ (t0 :: rest) ++ s.tables.drop R ∧
    (replaceTables s (t0 :: rest)).1.totalSize =
      s.totalSize + ((t0 :: rest).map Table.size).sum -
        (((s.tables.drop L).take (R - L)).map Table.size).sum ∧
    (replaceTables s (t0 :: rest)).2.1 = t0 :: rest ∧
    (replaceTables s (t0 :: rest)).2.2 = (s.tables.drop L).take (R - L) := by
  have hne : (t0 :: rest) ≠ [] := List.cons_ne_nil t0 rest
  have hlast : ∀ x ∈ t0 :: rest,
      x.biggest ≤ ((t0 :: rest).getLast hne).biggest :=
    ordered_biggest_le_last hnew hne
  have hse : t0.smallest ≤ ((t0 :: rest).getLast hne).biggest :=
    le_trans (hnew.1 t0 (List.mem_cons_self t0 rest))
      (hlast t0 (List.mem_cons_self t0 rest))
  obtain ⟨hLR, hRlen, hchar⟩ := getTablesInRange_spec s.tables t0.smallest
    (((t0 :: rest).getLast hne).biggest) hord hse
  rw [hLReq] at hLR hRlen hchar
  refine ⟨hLR, hRlen, hchar, ?_, ?_, ?_, ?_⟩ <;>
    simp only [replaceTables, hLReq]

/-- Witness for C2: handler `[0,1] [4,6] [9,12]` at level 1, replacing with
the single table `[3,7]`; the overlap interval is `[1, 2)`, the middle table
is replaced and the sizes adjust accordingly. -/
theorem claim_C2_witness :
    (1 ≤ (⟨[⟨1, 0, 1, 10⟩, ⟨2, 4, 6, 20⟩, ⟨3, 9, 12, 30⟩], 60, 1, 1000⟩ :
        LevelHandler Nat).level) ∧
    tablesOrdered
      ([⟨1, 0, 1, 10⟩, ⟨2, 4, 6, 20⟩, ⟨3, 9, 12, 30⟩] : List (Table Nat)) ∧
    tablesOrdered ([⟨7, 3, 7, 25⟩] : List (Table Nat)) ∧
    (replaceTables
        (⟨[⟨1, 0, 1, 10⟩, ⟨2, 4, 6, 20⟩, ⟨3, 9, 12, 30⟩], 60, 1, 1000⟩ :
          LevelHandler Nat) [⟨7, 3, 7, 25⟩]).1.tables =
      ([⟨1, 0, 1, 10⟩, ⟨2, 4, 6, 20⟩, ⟨3, 9, 12, 30⟩] :
          List (Table Nat)).take 1 ++ [⟨7, 3, 7, 25⟩] ++
        ([⟨1, 0, 1, 10⟩, ⟨2, 4, 6, 20⟩, ⟨3, 9, 12, 30⟩] :
          List (Table Nat)).drop 2 ∧
    (replaceTables
        (⟨[⟨1, 0, 1, 10⟩, ⟨2, 4, 6, 20⟩, ⟨3, 9, 12, 30⟩], 60, 1, 1000⟩ :
          LevelHandler Nat) [⟨7, 3, 7, 25⟩]).2.2 =
      (([⟨1, 0, 1, 10⟩, ⟨2, 4, 6, 20⟩, ⟨3, 9, 12, 30⟩] :
          List (Table Nat)).drop 1).take (2 - 1) :=
  ⟨by decide, by decide, by decide,
    (claim_C2_replaceTables
        (⟨[⟨1, 0, 1, 10⟩, ⟨2, 4, 6, 20⟩, ⟨3, 9, 12, 30⟩], 60, 1, 1000⟩ :
          LevelHandler Nat) ⟨7, 3, 7, 25⟩ [] 1 2 (by decide) (by decide)
        (by decide) (by decide)).2.2.2.1,
    (claim_C2_replaceTables
        (⟨[⟨1, 0, 1, 10⟩, ⟨2, 4, 6, 20⟩, ⟨3, 9, 12, 30⟩], 60, 1, 1000⟩ :
          LevelHandler Nat) ⟨7, 3, 7, 25⟩ [] 1 2 (by decide) (by decide)
        (by decide) (by decide)).2.2.2.2.2.2⟩

/-- C3: starting from any ordered level-(≥1) table list, any sequence of
`replaceTables` (with strictly ordered inputs) and `deleteTables` operations
preserves the ordering invariant; in particular every adjacent pair of the
final table list satisfies `biggest[i] < smallest[i+1]`. -/
theorem claim_C3_ordering_preserved (s : LevelHandler K) (ops : List (LHOp K))
    (hord : tablesOrdered s.tables) (hops : ∀ op ∈ ops, opOrdered op) :
    tablesOrdered (applyLHOps s ops).tables ∧
    ∀ i (hi : i + 1 < (applyLHOps s ops).tables.length),
      ((applyLHOps s ops).tables.get ⟨i, by omega⟩).biggest <
        ((applyLHOps s ops).tables.get ⟨i + 1, hi⟩).smallest := by
  have hmain : tablesOrdered (applyLHOps s ops).tables := by
    induction ops generalizing s with
    | nil => exact hord
    | cons op rest ih =>
      rw [applyLHOps, List.foldl_cons]
      have hstep : tablesOrdered (applyLHOp s op).tables := by
        cases op with
        | replace nts =>
          exact replaceTables_ordered s nts hord (hops _ (List.mem_cons_self _ _))
        | delete td => exact deleteTables_ordered s td hord
      exact ih (applyLHOp s op) hstep fun op2 hop2 =>
        hops op2 (List.mem_cons_of_mem op hop2)
  refine ⟨hmain, ?_⟩
  have hc := hmain.2
  rw [List.chain'_iff_get] at hc
  intro i hi
  exact hc i (by omega)

/-- Witness for C3: a replace followed by a delete on an ordered two-table
level keeps adjacent tables strictly separated. -/
theorem claim_C3_witness :
    tablesOrdered ([⟨1, 0, 1, 10⟩, ⟨2, 4, 6, 20⟩] : List (Table Nat)) ∧
    (∀ op ∈ ([LHOp.replace [⟨7, 3, 7, 25⟩], LHOp.delete [⟨1, 0, 1, 10⟩]] :
        List (LHOp Nat)), opOrdered op) ∧
    tablesOrdered
      (applyLHOps (⟨[⟨1, 0, 1, 10⟩, ⟨2, 4, 6, 20⟩], 30, 1, 1000⟩ :
          LevelHandler Nat)
        [LHOp.replace [⟨7, 3, 7, 25⟩], LHOp.delete [⟨1, 0, 1, 10⟩]]).tables :=
  ⟨by decide, by decide,
    (claim_C3_ordering_preserved
        (⟨[⟨1, 0, 1, 10⟩, ⟨2, 4, 6, 20⟩], 30, 1, 1000⟩ : LevelHandler Nat)
        [LHOp.replace [⟨7, 3, 7, 25⟩], LHOp.delete [⟨1, 0, 1, 10⟩]]
        (by decide) (by decide)).1⟩

/-- C4: `totalSize` equals the sum of the held tables' sizes after every
mutation of the table set: `initTables` establishes it unconditionally,
`tryAddLevel0Table` (on success and on failure), `replaceTables` on ordered
input, and `deleteTables` preserve it. -/
theorem claim_C4_sizeAccounting (s : LevelHandler K) :
    (∀ tbls, sizeInvariant (initTables s tbls)) ∧
    (∀ t stall b s2 incr, tryAddLevel0Table s t stall = some (b, s2, incr) →
      sizeInvariant s → sizeInvariant s2) ∧
    (∀ nts, tablesOrdered s.tables → tablesOrdered nts →
      sizeInvariant s → sizeInvariant ((replaceTables s nts).1)) ∧
    (∀ td, sizeInvariant s → sizeInvariant ((deleteTables s td).1)) := by
  refine ⟨?_, ?_, ?_, ?_⟩
  · intro tbls
    unfold sizeInvariant initTables
    by_cases h : s.level = 0
    · simp only [h, if_true]
      exact (List.Perm.sum_eq (List.Perm.map Table.size
        (List.mergeSort_perm tbls _))).symm
    · simp only [if_neg h]
      exact (List.Perm.sum_eq (List.Perm.map Table.size
        (List.mergeSort_perm tbls _))).symm
  · intro t stall b s2 incr heq hsz
    unfold tryAddLevel0Table at heq
    by_cases hl : s.level = 0
    · rw [if_pos hl] at heq
      by_cases hstall : stall ≤ s.tables.length
      · rw [if_pos hstall] at heq
        simp only [Option.some.injEq, Prod.mk.injEq] at heq
        obtain ⟨-, rfl, -⟩ := heq
        exact hsz
      · rw [if_neg hstall] at heq
        simp only [Option.some.injEq, Prod.mk.injEq] at heq
        obtain ⟨-, rfl, -⟩ := heq
        unfold sizeInvariant at hsz ⊢
        simp only [List.map_append, List.sum_append, List.map_cons,
          List.map_nil, List.sum_cons, List.sum_nil]
        rw [hsz]
        ring
    · rw [if_neg hl] at heq
      exact absurd heq (by simp)
  · intro nts hord hnew hsz
    exact replaceTables_size s nts hord hnew hsz
  · intro td hsz
    exact deleteTables_size s td hsz

/-- Witness for C4: the invariant holds after an `initTables`, is preserved
across a `replaceTables` of the middle of an ordered level, and across a
`deleteTables`. -/
theorem claim_C4_witness :
    sizeInvariant
      (initTables (⟨[], 0, 1, 1000⟩ : LevelHandler Nat)
        [⟨2, 4, 6, 20⟩, ⟨1, 0, 1, 10⟩]) ∧
    sizeInvariant
      ((replaceTables (⟨[⟨1, 1, 2, 5⟩], 5, 1, 100⟩ : LevelHandler Nat)
        [⟨2, 3, 4, 7⟩]).1) ∧
    sizeInvariant
      ((deleteTables (⟨[⟨1, 1, 2, 5⟩], 5, 1, 100⟩ : LevelHandler Nat)
        [⟨1, 1, 2, 5⟩]).1) :=
  ⟨(claim_C4_sizeAccounting (⟨[], 0, 1, 1000⟩ : LevelHandler Nat)).1
      [⟨2, 4, 6, 20⟩, ⟨1, 0, 1, 10⟩],
    (claim_C4_sizeAccounting (⟨[⟨1, 1, 2, 5⟩], 5, 1, 100⟩ :
        LevelHandler Nat)).2.2.1 [⟨2, 3, 4, 7⟩] (by decide) (by decide) (by decide),
    (claim_C4_sizeAccounting (⟨[⟨1, 1, 2, 5⟩], 5, 1, 100⟩ :
        LevelHandler Nat)).2.2.2 [⟨1, 1, 2, 5⟩] (by decide)⟩

/-- The stall-wait loop can only end in admission or remain blocked; it never
produces an error. -/
theorem addLevel0TableWait_ne_manifestError (stall trigger : Nat) :
    ∀ trace : List (StallObs K),
      addLevel0TableWait stall trigger trace ≠ AddL0Outcome.manifestError := by
  intro trace
  induction trace with
  | nil => simp [addLevel0TableWait]
  | cons obs rest ih =>
    rw [addLevel0TableWait]
    by_cases hc : unstallCheck trigger obs = true
    · rw [if_pos hc]
      by_cases hcount : obs.l0count < stall
      · rw [if_pos hcount]
        simp
      · rw [if_neg hcount]
        exact ih
    · rw [if_neg hc]
      exact ih

/-- The unstall guard holds exactly when the observed level-0 count is below
the trigger and the observed level-1 total size is strictly below its
maximum. -/
theorem unstallCheck_iff (trigger : Nat) (obs : StallObs K) :
    unstallCheck trigger obs = true ↔
      (obs.l0count < trigger ∧ obs.l1.totalSize < obs.l1.maxTotalSize) := by
  simp only [unstallCheck, isCompactable, Bool.and_eq_true, Bool.not_eq_true',
    decide_eq_false_iff_not]
  constructor
  · rintro ⟨h1, h2⟩
    exact ⟨by omega, by omega⟩
  · rintro ⟨h1, h2⟩
    exact ⟨by omega, by omega⟩

/-- While no observation satisfies the unstall guard, the wait loop stays
blocked. -/
theorem addLevel0TableWait_blocked (stall trigger : Nat) :
    ∀ trace : List (StallObs K),
      (∀ obs ∈ trace, unstallCheck trigger obs = false) →
      addLevel0TableWait stall trigger trace = AddL0Outcome.stillBlocked := by
  intro trace
  induction trace with
  | nil => intro _; rfl
  | cons obs rest ih =>
    intro hall
    rw [addLevel0TableWait,
      if_neg (by rw [hall obs (List.mem_cons_self obs rest)]; simp)]
    exact ih fun o ho => hall o (List.mem_cons_of_mem obs ho)

/-- Once some observation satisfies the unstall guard (and the trigger is at
most the stall limit, as the controller asserts at construction), the wait
loop admits the table. -/
theorem addLevel0TableWait_admitted (stall trigger : Nat)
    (htrig : trigger ≤ stall) :
    ∀ trace : List (StallObs K),
      (∃ obs ∈ trace, unstallCheck trigger obs = true) →
      addLevel0TableWait stall trigger trace = AddL0Outcome.admitted := by
  intro trace
  induction trace with
  | nil => rintro ⟨obs, hobs, -⟩; cases hobs
  | cons obs rest ih =>
    rintro ⟨o, ho, hcheck⟩
    rw [addLevel0TableWait]
    by_cases hc : unstallCheck trigger obs = true
    · rw [if_pos hc]
      have := (unstallCheck_iff trigger obs).mp hc
      rw [if_pos (by omega)]
    · rw [if_neg hc]
      rcases List.mem_cons.mp ho with rfl | ho2
      · exact absurd hcheck hc
      · exact ih ⟨o, ho2, hcheck⟩

/-- Counterexample to C6 as stated: stall limit 4, trigger 3, level-1
maximum size 100.  L0 holds 4 tables, so the add stalls.  The claimed
unstall condition — count below the trigger and L1 size AT MOST
`max_total_size` — holds at the observed state (2 < 3 and 100 ≤ 100), yet
the call remains blocked: the code requires the L1 size to be strictly below
the maximum (`isCompactable` uses `>=`). -/
theorem claim_C6_counterexample :
    (4 ≤ (4 : Nat)) ∧
    ((2 : Nat) < 3 ∧ (100 : Int) ≤ 100) ∧
    addLevel0Table true 4 3 (⟨4, ⟨[], 100, 1, 100⟩⟩ : StallObs Nat)
      [⟨2, ⟨[], 100, 1, 100⟩⟩] = AddL0Outcome.stillBlocked := by
  decide

/-- C6 (amended): once L0 has reached `num_l0_stall` tables,
`addLevel0Table` blocks rather than erroring — its only error outcome is the
manifest-append failure — and it stays blocked until an observation has L0's
table count below `num_l0_compact_trigger` AND L1's total size STRICTLY
below `max_total_size[1]` (both with zero compaction delta); at the first
such observation it is admitted (the trigger is below the stall limit by the
controller's construction-time assertion), and a successful retry is exactly
a `tryAddLevel0Table` that sees fewer than `stall` tables. -/
theorem claim_C6_addLevel0Table_amended (stall trigger : Nat)
    (first : StallObs K) (trace : List (StallObs K))
    (hstall : stall ≤ first.l0count) :
    (∀ manifestOk, (addLevel0Table manifestOk stall trigger first trace =
      AddL0Outcome.manifestError ↔ manifestOk = false)) ∧
    (∀ obs : StallObs K, unstallCheck trigger obs = true ↔
      (obs.l0count < trigger ∧ obs.l1.totalSize < obs.l1.maxTotalSize)) ∧
    ((∀ obs ∈ trace, ¬(obs.l0count < trigger ∧
        obs.l1.totalSize < obs.l1.maxTotalSize)) →
      addLevel0Table true stall trigger first trace =
        AddL0Outcome.stillBlocked) ∧
    (trigger ≤ stall →
      (∃ obs ∈ trace, obs.l0count < trigger ∧
        obs.l1.totalSize < obs.l1.maxTotalSize) →
      addLevel0Table true stall trigger first trace = AddL0Outcome.admitted) ∧
    (∀ (s : LevelHandler K) t, s.level = 0 →
      ((∃ s2 incr, tryAddLevel0Table s t stall = some (true, s2, incr)) ↔
        s.tables.length < stall)) := by
  have hfirst : ¬(first.l0count < stall) := by omega
  refine ⟨?_, unstallCheck_iff trigger, ?_, ?_, ?_⟩
  · intro manifestOk
    cases manifestOk with
    | false => simp [addLevel0Table]
    | true =>
      rw [addLevel0Table, if_pos rfl, if_neg hfirst]
      simp only [iff_false, Bool.true_eq_false]
      exact addLevel0TableWait_ne_manifestError stall trigger trace
  · intro hall
    rw [addLevel0Table, if_pos rfl, if_neg hfirst]
    refine addLevel0TableWait_blocked stall trigger trace fun obs hobs => ?_
    have := hall obs hobs
    rw [← unstallCheck_iff trigger obs] at this
    simpa using this
  · intro htrig hex
    rw [addLevel0Table, if_pos rfl, if_neg hfirst]
    refine addLevel0TableWait_admitted stall trigger htrig trace ?_
    obtain ⟨obs, hobs, hcond⟩ := hex
    exact ⟨obs, hobs, (unstallCheck_iff trigger obs).mpr hcond⟩
  · intro s t hlv
    rw [tryAddLevel0Table, if_pos hlv]
    constructor
    · rintro ⟨s2, incr, heq⟩
      by_contra hc
      push_neg at hc
      rw [if_pos hc] at heq
      simp at heq
    · intro hlt
      rw [if_neg (by omega)]
      exact ⟨_, _, rfl⟩

/-- Witness for C6's amended theorem: with stall 4 and trigger 3, an initial
observation of 4 tables stalls; the trace observation with 2 tables and L1
at 50 of 100 satisfies the amended condition, and the add is admitted. -/
theorem claim_C6_witness :
    (4 ≤ (4 : Nat)) ∧ ((3 : Nat) ≤ 4) ∧
    addLevel0Table true 4 3 (⟨4, ⟨[], 100, 1, 100⟩⟩ : StallObs Nat)
      [⟨2, ⟨[], 50, 1, 100⟩⟩] = AddL0Outcome.admitted :=
  ⟨by decide, by decide,
    (claim_C6_addLevel0Table_amended 4 3 (⟨4, ⟨[], 100, 1, 100⟩⟩ : StallObs Nat)
        [⟨2, ⟨[], 50, 1, 100⟩⟩] (by decide)).2.2.2.1 (by decide)
      ⟨⟨2, ⟨[], 50, 1, 100⟩⟩, by decide, by decide, by decide⟩⟩

/-- A priority emitted by the upper-level loop carries the level it was
emitted for. -/
theorem pickUpperEntry_level (lc : LevelsController K) (L : Nat)
    (p : CompactionPriority) (h : pickUpperEntry lc L = some p) :
    p.level = L := by
  unfold pickUpperEntry at h
  split at h
  · split at h
    · cases h
      rfl
    · exact absurd h (by simp)
  · exact absurd h (by simp)

/-- The upper-level loop body, written against the handler found at the
level: emits exactly when the level is compactable net of the delta. -/
theorem pickUpperEntry_eq (lc : LevelsController K) (L : Nat)
    (l : LevelHandler K) (hL : lc.levels[L]? = some l) :
    pickUpperEntry lc L =
      if l.maxTotalSize + cstatusDeltaSize lc L ≤ l.totalSize then
        some ⟨L, ((l.totalSize - cstatusDeltaSize lc L : Int) : Rat) /
          (l.maxTotalSize : Rat)⟩
      else none := by
  unfold pickUpperEntry
  rw [hL]
  show (if isCompactable l (cstatusDeltaSize lc L) = true then
      some (⟨L, ((l.totalSize - cstatusDeltaSize lc L : Int) : Rat) /
        (l.maxTotalSize : Rat)⟩ : CompactionPriority)
    else none) = _
  by_cases hc : l.maxTotalSize + cstatusDeltaSize lc L ≤ l.totalSize
  · rw [if_pos (show isCompactable l (cstatusDeltaSize lc L) = true by
      simp only [isCompactable, decide_eq_true_eq]; exact hc), if_pos hc]
  · rw [if_neg (show ¬isCompactable l (cstatusDeltaSize lc L) = true by
      simp only [isCompactable, decide_eq_true_eq]; exact hc), if_neg hc]

/-- Membership in the pick result, before sorting. -/
theorem mem_pickCompactLevels (lc : LevelsController K) (p : CompactionPriority) :
    p ∈ pickCompactLevels lc ↔
      (((!cstatusOverlapsWith lc 0 KeyRange.inf && isL0Compactable lc) = true ∧
          p = ⟨0, (numTablesL0 lc : Rat) / (lc.numLevelZeroTables : Rat)⟩) ∨
        ∃ L, L ∈ List.range' 1 (lc.levels.length - 1) ∧
          pickUpperEntry lc L = some p) := by
  simp only [pickCompactLevels, List.mem_mergeSort, List.mem_append,
    List.mem_filterMap]
  by_cases hc : (!cstatusOverlapsWith lc 0 KeyRange.inf && isL0Compactable lc) = true
  · simp [hc]
  · simp [hc]

/-- A reservation list overlaps the `inf` range iff it is nonempty (every
range overlaps `inf`). -/
theorem cstatusOverlaps_inf_iff (lc : LevelsController K) (level : Nat) :
    cstatusOverlapsWith lc level KeyRange.inf = true ↔
      reservedRanges lc level ≠ [] := by
  unfold cstatusOverlapsWith reservedRanges
  cases h : lc.cstatusLevels[level]? with
  | none => simp
  | some s =>
    simp only [lcsOverlapsWith, List.any_eq_true]
    constructor
    · rintro ⟨r, hr, -⟩ hnil
      rw [hnil] at hr
      cases hr
    · intro hne
      obtain ⟨r, hr⟩ := List.exists_mem_of_ne_nil s.ranges hne
      exact ⟨r, hr, by cases r <;> rfl⟩

/-- The sorted output of `pickCompactLevels` is descending in score. -/
theorem pickCompactLevels_sorted (lc : LevelsController K) :
    (pickCompactLevels lc).Sorted
      fun a b : CompactionPriority => b.score ≤ a.score := by
  unfold pickCompactLevels
  refine List.Pairwise.imp ?_ (List.sorted_mergeSort ?_ ?_ _)
  · intro a b h
    exact decide_eq_true_eq.mp h
  · intro a b c hab hbc
    simp only [decide_eq_true_eq] at hab hbc ⊢
    exact le_trans hbc hab
  · intro a b
    simp only [Bool.or_eq_true, decide_eq_true_eq]
    exact le_total b.score a.score

/-- C5: `pickCompactLevels` emits a level-0 priority with score
`numTables / num_l0_compact_trigger` exactly when no inf range is reserved
at level 0 — stated under the system invariant that every level-0
reservation is `inf`, so that "some reservation overlaps inf" and "an inf
range is reserved" coincide — and L0's table count has reached the trigger;
for each level `L ≥ 1` it emits a priority with score
`(totalSize - delta) / maxTotalSize` exactly when
`totalSize ≥ maxTotalSize + delta`; and the returned list is sorted in
descending order of score. -/
theorem claim_C5_pickCompactLevels (lc : LevelsController K)
    (l0 : LevelHandler K) (h0 : lc.levels[0]? = some l0)
    (hinf : ∀ kr ∈ reservedRanges lc 0, kr = KeyRange.inf) :
    ((∃ sc, (⟨0, sc⟩ : CompactionPriority) ∈ pickCompactLevels lc) ↔
      ((¬∃ kr ∈ reservedRanges lc 0, kr = KeyRange.inf) ∧
        lc.numLevelZeroTables ≤ l0.tables.length)) ∧
    (∀ sc, (⟨0, sc⟩ : CompactionPriority) ∈ pickCompactLevels lc →
      sc = (l0.tables.length : Rat) / (lc.numLevelZeroTables : Rat)) ∧
    (∀ L, 1 ≤ L → ∀ l : LevelHandler K, lc.levels[L]? = some l →
      (((∃ sc, (⟨L, sc⟩ : CompactionPriority) ∈ pickCompactLevels lc) ↔
          l.maxTotalSize + cstatusDeltaSize lc L ≤ l.totalSize) ∧
        ∀ sc, (⟨L, sc⟩ : CompactionPriority) ∈ pickCompactLevels lc →
          sc = ((l.totalSize - cstatusDeltaSize lc L : Int) : Rat) /
            (l.maxTotalSize : Rat))) ∧
    (pickCompactLevels lc).Sorted
      (fun a b : CompactionPriority => b.score ≤ a.score) := by
  have hnum : numTablesL0 lc = l0.tables.length := by
    unfold numTablesL0
    rw [h0]
  have hcond : (!cstatusOverlapsWith lc 0 KeyRange.inf && isL0Compactable lc) =
      true ↔
      ((¬∃ kr ∈ reservedRanges lc 0, kr = KeyRange.inf) ∧
        lc.numLevelZeroTables ≤ l0.tables.length) := by
    simp only [Bool.and_eq_true, Bool.not_eq_true', isL0Compactable,
      decide_eq_true_eq, hnum]
    constructor
    · rintro ⟨hov, hn⟩
      refine ⟨?_, hn⟩
      rintro ⟨kr, hkr, -⟩
      have : reservedRanges lc 0 ≠ [] := fun hnil => by
        rw [hnil] at hkr
        cases hkr
      have := (cstatusOverlaps_inf_iff lc 0).mpr this
      rw [hov] at this
      cases this
    · rintro ⟨hno, hn⟩
      refine ⟨?_, hn⟩
      by_contra hb
      have hb2 : cstatusOverlapsWith lc 0 KeyRange.inf = true := by
        cases hov : cstatusOverlapsWith lc 0 KeyRange.inf with
        | true => rfl
        | false => exact absurd hov hb
      have hne := (cstatusOverlaps_inf_iff lc 0).mp hb2
      obtain ⟨kr, hkr⟩ := List.exists_mem_of_ne_nil _ hne
      exact hno ⟨kr, hkr, hinf kr hkr⟩
  have hmem0 : ∀ sc, (⟨0, sc⟩ : CompactionPriority) ∈ pickCompactLevels lc ↔
      ((!cstatusOverlapsWith lc 0 KeyRange.inf && isL0Compactable lc) = true ∧
        sc = (numTablesL0 lc : Rat) / (lc.numLevelZeroTables : Rat)) := by
    intro sc
    rw [mem_pickCompactLevels]
    constructor
    · rintro (⟨hcd, heq⟩ | ⟨L, hLr, hent⟩)
      · refine ⟨hcd, ?_⟩
        have := congrArg CompactionPriority.score heq
        simpa using this
      · have := pickUpperEntry_level lc L _ hent
        simp only at this
        rw [List.mem_range'_1] at hLr
        omega
    · rintro ⟨hcd, rfl⟩
      exact Or.inl ⟨hcd, rfl⟩
  refine ⟨?_, ?_, ?_, pickCompactLevels_sorted lc⟩
  · constructor
    · rintro ⟨sc, hsc⟩
      exact hcond.mp ((hmem0 sc).mp hsc).1
    · intro hrhs
      exact ⟨_, (hmem0 _).mpr ⟨hcond.mpr hrhs, rfl⟩⟩
  · intro sc hsc
    have := ((hmem0 sc).mp hsc).2
    rw [hnum] at this
    exact this
  · intro L hL l hLl
    have hLlen : L < lc.levels.length := by
      rw [List.getElem?_eq_some_iff] at hLl
      exact hLl.1
    have hmemL : ∀ sc, (⟨L, sc⟩ : CompactionPriority) ∈ pickCompactLevels lc ↔
        (l.maxTotalSize + cstatusDeltaSize lc L ≤ l.totalSize ∧
          sc = ((l.totalSize - cstatusDeltaSize lc L : Int) : Rat) /
            (l.maxTotalSize : Rat)) := by
      intro sc
      rw [mem_pickCompactLevels]
      constructor
      · rintro (⟨-, heq⟩ | ⟨L2, hLr, hent⟩)
        · have := congrArg CompactionPriority.level heq
          simp only at this
          omega
        · have hlev := pickUpperEntry_level lc L2 _ hent
          simp only at hlev
          subst hlev
          rw [pickUpperEntry_eq lc L l hLl] at hent
          by_cases hc : l.maxTotalSize + cstatusDeltaSize lc L ≤ l.totalSize
          · rw [if_pos hc] at hent
            cases hent
            exact ⟨hc, rfl⟩
          · rw [if_neg hc] at hent
            cases hent
      · rintro ⟨hc, rfl⟩
        refine Or.inr ⟨L, ?_, ?_⟩
        · rw [List.mem_range'_1]
          omega
        · rw [pickUpperEntry_eq lc L l hLl, if_pos hc]
    constructor
    · constructor
      · rintro ⟨sc, hsc⟩
        exact ((hmemL sc).mp hsc).1
      · intro hc
        exact ⟨_, (hmemL _).mpr ⟨hc, rfl⟩⟩
    · intro sc hsc
      exact ((hmemL sc).mp hsc).2

/-- Witness for C5: two levels; L0 holds 3 tables against a trigger of 2
with no reservation, L1 is over its maximum by 5 with delta 0; both
priorities are emitted with the claimed scores. -/
theorem claim_C5_witness :
    ((⟨[⟨[⟨1, 0, 1, 4⟩, ⟨2, 0, 1, 4⟩, ⟨3, 0, 1, 4⟩], 12, 0, 0⟩,
          ⟨[⟨4, 0, 9, 105⟩], 105, 1, 100⟩],
        [⟨[], 0⟩, ⟨[], 0⟩], 2⟩ : LevelsController Nat).levels[0]? =
      some ⟨[⟨1, 0, 1, 4⟩, ⟨2, 0, 1, 4⟩, ⟨3, 0, 1, 4⟩], 12, 0, 0⟩) ∧
    (∃ sc, (⟨0, sc⟩ : CompactionPriority) ∈
      pickCompactLevels
        (⟨[⟨[⟨1, 0, 1, 4⟩, ⟨2, 0, 1, 4⟩, ⟨3, 0, 1, 4⟩], 12, 0, 0⟩,
            ⟨[⟨4, 0, 9, 105⟩], 105, 1, 100⟩],
          [⟨[], 0⟩, ⟨[], 0⟩], 2⟩ : LevelsController Nat)) ∧
    (∃ sc, (⟨1, sc⟩ : CompactionPriority) ∈
      pickCompactLevels
        (⟨[⟨[⟨1, 0, 1, 4⟩, ⟨2, 0, 1, 4⟩, ⟨3, 0, 1, 4⟩], 12, 0, 0⟩,
            ⟨[⟨4, 0, 9, 105⟩], 105, 1, 100⟩],
          [⟨[], 0⟩, ⟨[], 0⟩], 2⟩ : LevelsController Nat)) :=
  ⟨by decide,
    (claim_C5_pickCompactLevels
        (⟨[⟨[⟨1, 0, 1, 4⟩, ⟨2, 0, 1, 4⟩, ⟨3, 0, 1, 4⟩], 12, 0, 0⟩,
            ⟨[⟨4, 0, 9, 105⟩], 105, 1, 100⟩],
          [⟨[], 0⟩, ⟨[], 0⟩], 2⟩ : LevelsController Nat)
        ⟨[⟨1, 0, 1, 4⟩, ⟨2, 0, 1, 4⟩, ⟨3, 0, 1, 4⟩], 12, 0, 0⟩
        (by decide) (by decide)).1.mpr ⟨by decide, by decide⟩,
    ((claim_C5_pickCompactLevels
        (⟨[⟨[⟨1, 0, 1, 4⟩, ⟨2, 0, 1, 4⟩, ⟨3, 0, 1, 4⟩], 12, 0, 0⟩,
            ⟨[⟨4, 0, 9, 105⟩], 105, 1, 100⟩],
          [⟨[], 0⟩, ⟨[], 0⟩], 2⟩ : LevelsController Nat)
        ⟨[⟨1, 0, 1, 4⟩, ⟨2, 0, 1, 4⟩, ⟨3, 0, 1, 4⟩], 12, 0, 0⟩
        (by decide) (by decide)).2.2.1 1 (by decide)
        ⟨[⟨4, 0, 9, 105⟩], 105, 1, 100⟩ (by decide)).1.mpr (by decide)⟩

end Proofs

end Badger
